import Mathlib

/-!
Verification development for the wptagent video post-processing pipeline
(`internal/video_processing.py`).

The Python module operates on a directory of PNG frames named
`ms_<milliseconds>.png`.  We embed a frame as its identity (`id`, standing
for the full filesystem path; two distinct files have distinct ids) together
with the result of matching the filename against the regular expression
`ms_(?P<ms>[0-9]+)\.` (`ts? = some t` when it matches, `none` otherwise).
A `FrameSequence` is the sorted directory listing, embedded as a
`List Frame`; the code's deletions (`os.remove`) are embedded by returning
the list of surviving frames, and the re-scan (`sorted(glob.glob(...))`)
performed between stages returns exactly those survivors in unchanged
relative order, so re-scanning is the identity on the embedded list.

External tools (`compare`, `convert`, visualmetrics) are embedded as
oracle parameters.
-/

namespace WptAgent

/-- One captured video frame.  `id` stands for the file path (distinct
files have distinct `id`s); `ts?` is the millisecond timestamp parsed
from the filename by `re.search(r'ms_(?P<ms>[0-9]+)\.', path)`, or `none`
when the pattern does not match. -/
structure Frame where
  id : Nat
  ts? : Option Nat
deriving DecidableEq, Repr, Inhabited

/-- Timestamp of the frame at index `idx` (0 when absent or unparseable). -/
def tsAt (frames : List Frame) (idx : Nat) : Nat :=
  match frames[idx]? with
  | some f => f.ts?.getD 0
  | none => 0

/-- The `for frame in frames` loop of `sample_frames`
(video_processing.py lines 142-156).  State threaded through the loop:
`lastBucket` is Python's `last_bucket` (`none` = Python `None`; the Python
comparison `frame_bucket == last_bucket` is `False` against `None`), and
`count` is Python's `frame_count`, re-zeroed before the loop and
incremented only for frames whose name matches the timestamp pattern.
Frames whose name does not match are passed over entirely: they are
never removed and neither `frame_count` nor `last_bucket` changes.
Deletion (`os.remove`) is embedded by dropping the frame from the result.
Python 2's `int(math.floor(frame_time / interval))` on non-negative ints
is natural-number division. -/
def sampleLoop (firstFrame firstChange lastFrame : Frame)
    (thresholdMs interval skipFrames : Nat) :
    Option Nat → Nat → List Frame → List Frame
  | _, _, [] => []
  | lastBucket, count, f :: rest =>
    match f.ts? with
    | none =>
      f :: sampleLoop firstFrame firstChange lastFrame thresholdMs interval
        skipFrames lastBucket count rest
    | some t =>
      let bucket := t / interval
      if t > thresholdMs ∧ some bucket = lastBucket ∧ f ≠ firstFrame ∧
          f ≠ firstChange ∧ f ≠ lastFrame ∧ count + 1 > skipFrames then
        sampleLoop firstFrame firstChange lastFrame thresholdMs interval
          skipFrames (some bucket) (count + 1) rest
      else
        f :: sampleLoop firstFrame firstChange lastFrame thresholdMs interval
          skipFrames (some bucket) (count + 1) rest

/-- `sample_frames(frames, interval, start_ms, skip_frames)`
(video_processing.py lines 124-156).  Only runs when the sequence has
more than 3 frames; pins `frames[0]`, `frames[1]` and `frames[-1]`;
`first_change_time` is the parsed timestamp of `frames[1]`, defaulting
to 0 when the name does not match; the deletion threshold is
`first_change_time + start_ms`. -/
def sampleFrames (frames : List Frame) (interval startMs skipFrames : Nat) :
    List Frame :=
  match frames with
  | f0 :: f1 :: f2 :: f3 :: rest =>
    sampleLoop f0 f1 ((f3 :: rest).getLast (List.cons_ne_nil _ _))
      (f1.ts?.getD 0 + startMs) interval skipFrames none 0
      (f0 :: f1 :: f2 :: f3 :: rest)
  | l => l

/-- Python's `int(maxframes * (tenths/10))` for the literals `0.2`,
`0.4`, `0.6` of `cap_frame_count`, embedded as exact natural division
(the float computation and the exact one agree on every `maxframes`
up to 100000; at the pipeline's `maxframes = 50` the quotas are
10, 20 and 30). -/
def skipQuota (maxframes tenths : Nat) : Nat :=
  maxframes * tenths / 10

/-- `cap_frame_count(directory, maxframes)` (video_processing.py lines
91-121).  Each `sorted(glob.glob(...))` re-scan between passes returns the
frames surviving the previous pass in unchanged order, which is exactly
the list the previous `sampleFrames` returned. -/
def capFrameCount (frames : List Frame) (maxframes : Nat) : List Frame :=
  if frames.length > maxframes then
    let pass1 := sampleFrames frames 100 0 (skipQuota maxframes 2)
    if pass1.length > maxframes then
      let pass2 := sampleFrames pass1 500 5000 (skipQuota maxframes 4)
      if pass2.length > maxframes then
        sampleFrames pass2 1000 10000 (skipQuota maxframes 6)
      else pass2
    else pass1
  else frames

/-- A pixel-diff oracle: the result of one invocation of the external
`compare -metric AE -fuzz <fuzz>% img1 img2 null:` tool.  `some n` embeds
a run whose stderr was a digit string (`re.match('^[0-9]+$', err)`)
parsing to `n`; `none` embeds every failure mode (tool missing, crash,
non-numeric stderr). -/
abbrev DiffOracle := Nat → Frame → Frame → Option Nat

/-- `frames_match(image1, image2, fuzz_percent, max_differences)`
(video_processing.py lines 76-89): `match` stays `False` unless stderr
parses as a number `different_pixels` with
`different_pixels <= max_differences`. -/
def framesMatch (diff : DiffOracle) (image1 image2 : Frame)
    (fuzzPercent maxDifferences : Nat) : Bool :=
  match diff fuzzPercent image1 image2 with
  | some differentPixels => if differentPixels ≤ maxDifferences then true else false
  | none => false

/-- The inner loop of the duplicate-elimination scan in `process`
(video_processing.py lines 43-49): for each frame, if
`frames_match(baseline, frame, 1, 0)` the frame is removed and the
baseline is unchanged, otherwise the frame becomes the new baseline. -/
def dedupLoop (diff : DiffOracle) (baseline : Frame) : List Frame → List Frame
  | [] => []
  | f :: rest =>
    if framesMatch diff baseline f 1 0 then dedupLoop diff baseline rest
    else f :: dedupLoop diff f rest

/-- The duplicate-elimination stage of `process` (video_processing.py
lines 40-49): when the sequence has more than one frame, the baseline
starts at `files[0]` and the scan runs over indices `1..count-1`.
A sequence of length ≤ 1 is untouched, which the definition also
satisfies. -/
def removeDuplicates (diff : DiffOracle) : List Frame → List Frame
  | [] => []
  | b :: rest => b :: dedupLoop diff b rest

/-- A resize oracle: one invocation of the external
`convert file -resize WxH file` call.  Arguments: current dimensions of
the image, target dimensions; `some d` embeds a successful rewrite
leaving the image with dimensions `d`, `none` embeds a failed invocation
(the file is left unchanged). -/
abbrev ResizeOracle := Nat × Nat → Nat × Nat → Option (Nat × Nat)

/-- The dimension-normalization stage of `process` (video_processing.py
lines 26-36): when more than one frame exists, read the second frame's
`(width, height)` and invoke `convert files[0] -resize WxH files[0]`.
The frame dimensions are embedded as a map `Frame → Nat × Nat`, updated
at the first frame when the resize invocation succeeds. -/
def normalizeFirst (resize : ResizeOracle) (dims : Frame → Nat × Nat) :
    List Frame → (Frame → Nat × Nat)
  | f0 :: f1 :: _ =>
    match resize (dims f0) (dims f1) with
    | some d => fun f => if f = f0 then d else dims f
    | none => dims
  | _ => dims

/-- Events of one `process()` run (video_processing.py lines 23-66).
`transcodeWork` is the body of `convert_to_jpeg`, executed on the worker
thread; all other events happen on the orchestrating thread. -/
inductive Ev
  | normalize
  | capCount
  | dedup
  | forkTranscoder
  | metricsCall
  | joinTranscoder
  | deleteOriginals
  | transcodeWork
deriving DecidableEq, Repr

/-- The orchestrating thread's statement order in `process`
(video_processing.py lines 23-66): resize of the first frame, then
`cap_frame_count(self.video_path, 50)`, then the duplicate-elimination
loop, then `jpeg_thread.start()`, then the blocking `subprocess.call`
of visualmetrics, then `jpeg_thread.join()`, then the `os.remove` loop
over the remaining PNG files. -/
def mainTrace : List Ev :=
  [Ev.normalize, Ev.capCount, Ev.dedup, Ev.forkTranscoder,
   Ev.metricsCall, Ev.joinTranscoder, Ev.deleteOriginals]

/-- Happens-before for one `process()` run: the orchestrating thread's
events occur in `mainTrace` order; the worker body starts only after
`jpeg_thread.start()`; and `jpeg_thread.join()` returns only after the
worker body has finished. -/
inductive hb : Ev → Ev → Prop
  | mainStep (i j : Fin mainTrace.length) : (i : Nat) < (j : Nat) →
      hb (mainTrace.get i) (mainTrace.get j)
  | forkSpawn : hb Ev.forkTranscoder Ev.transcodeWork
  | joinWait : hb Ev.transcodeWork Ev.joinTranscoder
  | trans {a b c : Ev} : hb a b → hb b c → hb a c

/-- The pass table of §3 of the specification: for target `m`,
pass 1 = (bucket 100 ms, window start 0 ms, quota of 0.2·m),
pass 2 = (500, 5000, 0.4·m), pass 3 = (1000, 10000, 0.6·m). -/
def passTable (m : Nat) : List (Nat × Nat × Nat) :=
  [(100, 0, skipQuota m 2), (500, 5000, skipQuota m 4), (1000, 10000, skipQuota m 6)]

/-- The Adaptive Capper as the specification words it: before each pass
re-derive the sequence and compare its length to the target; stop as soon
as it is not over budget, otherwise run the Windowed Sampler with that
pass's parameters and continue with the next pass. -/
def runPasses (m : Nat) : List (Nat × Nat × Nat) → List Frame → List Frame
  | [], fs => fs
  | (w, s, k) :: ps, fs =>
    if fs.length > m then runPasses m ps (sampleFrames fs w s k) else fs

/-- The Duplicate Eliminator's scan as the specification words it:
frame deleted iff the pixel-diff invocation at 1% fuzz returns a count of
differing pixels that is ≤ 0, keeping the baseline; otherwise (including
a failed invocation, `none`) the frame is retained and becomes the new
baseline. -/
def dedupSpecLoop (diff : DiffOracle) (baseline : Frame) :
    List Frame → List Frame
  | [] => []
  | f :: rest =>
    match diff 1 baseline f with
    | some n =>
      if n ≤ 0 then dedupSpecLoop diff baseline rest
      else f :: dedupSpecLoop diff f rest
    | none => f :: dedupSpecLoop diff f rest

/-- The Duplicate Eliminator as the specification words it: the first
frame is the initial baseline and is never removed; the scan starts at
index 1. -/
def removeDuplicatesSpec (diff : DiffOracle) : List Frame → List Frame
  | [] => []
  | b :: rest => b :: dedupSpecLoop diff b rest

/-- The Windowed Sampler loop as claimed by §3/§7 of the specification
for unparseable filenames: a frame with no parseable timestamp is
"treated as timestamp 0 for bucketing purposes" and otherwise
"participates in bucketing and deletion logic like any other frame"
(it is counted and it updates `last_bucket`). -/
def sampleLoopTs0 (firstFrame firstChange lastFrame : Frame)
    (thresholdMs interval skipFrames : Nat) :
    Option Nat → Nat → List Frame → List Frame
  | _, _, [] => []
  | lastBucket, count, f :: rest =>
    let t := f.ts?.getD 0
    let bucket := t / interval
    if t > thresholdMs ∧ some bucket = lastBucket ∧ f ≠ firstFrame ∧
        f ≠ firstChange ∧ f ≠ lastFrame ∧ count + 1 > skipFrames then
      sampleLoopTs0 firstFrame firstChange lastFrame thresholdMs interval
        skipFrames (some bucket) (count + 1) rest
    else
      f :: sampleLoopTs0 firstFrame firstChange lastFrame thresholdMs interval
        skipFrames (some bucket) (count + 1) rest

/-- The Windowed Sampler as §3/§7 of the specification describe it for
sequences containing unparseable filenames (see `sampleLoopTs0`). -/
def sampleFramesTs0 (frames : List Frame) (interval startMs skipFrames : Nat) :
    List Frame :=
  match frames with
  | f0 :: f1 :: f2 :: f3 :: rest =>
    sampleLoopTs0 f0 f1 ((f3 :: rest).getLast (List.cons_ne_nil _ _))
      (f1.ts?.getD 0 + startMs) interval skipFrames none 0
      (f0 :: f1 :: f2 :: f3 :: rest)
  | l => l

/-- A concrete six-frame sequence containing one unparseable filename
(frame `⟨3, none⟩`), used to separate the code's sampler from the
specification's description of it. -/
def exSeq6 : List Frame :=
  [⟨0, some 0⟩, ⟨1, some 0⟩, ⟨2, some 1000⟩, ⟨3, none⟩,
   ⟨4, some 1050⟩, ⟨5, some 5000⟩]

lemma dedupLoop_eq_spec (diff : DiffOracle) :
    ∀ (l : List Frame) (b : Frame), dedupLoop diff b l = dedupSpecLoop diff b l := by
  intro l
  induction l with
  | nil => intro b; rfl
  | cons f rest ih =>
    intro b
    rcases h : diff 1 b f with _ | n
    · simp [dedupLoop, dedupSpecLoop, framesMatch, h, ih]
    · by_cases hn : n ≤ 0 <;>
        simp [dedupLoop, dedupSpecLoop, framesMatch, h, hn, ih]

/-- C1 (counterexample): in the orchestrating thread's statement order,
`cap_frame_count` runs strictly before the duplicate-elimination scan,
refuting the claimed "duplicate elimination completes before the first
capping pass begins". -/
theorem capCount_before_dedup_in_process :
    mainTrace.indexOf Ev.capCount < mainTrace.indexOf Ev.dedup := by decide

/-- C1 (amended): the pipeline stages run in the order Normalize, then
Cap Count, then Eliminate Duplicates, then fork of the transcoder worker,
then the blocking metrics-analysis call, then join, then deletion of the
original frames; the transcoder body runs between fork and join. -/
theorem process_stage_order :
    (mainTrace.indexOf Ev.normalize < mainTrace.indexOf Ev.capCount ∧
     mainTrace.indexOf Ev.capCount < mainTrace.indexOf Ev.dedup ∧
     mainTrace.indexOf Ev.dedup < mainTrace.indexOf Ev.forkTranscoder ∧
     mainTrace.indexOf Ev.forkTranscoder < mainTrace.indexOf Ev.metricsCall ∧
     mainTrace.indexOf Ev.metricsCall < mainTrace.indexOf Ev.joinTranscoder ∧
     mainTrace.indexOf Ev.joinTranscoder < mainTrace.indexOf Ev.deleteOriginals) ∧
    hb Ev.forkTranscoder Ev.transcodeWork ∧ hb Ev.transcodeWork Ev.joinTranscoder :=
  ⟨by decide, hb.forkSpawn, hb.joinWait⟩

lemma capFrameCount_eq_runPasses_aux (frames : List Frame) (m : Nat) :
    capFrameCount frames m = runPasses m (passTable m) frames := by
  simp only [capFrameCount, passTable, runPasses]

/-- C3: the Adaptive Capper is exactly the three-pass early-exit schedule
over the §3 pass table — at most three Windowed Sampler passes with the
fixed parameters (100, 0, 0.2·m), (500, 5000, 0.4·m), (1000, 10000,
0.6·m), the sequence re-derived before each pass, each pass running only
if the current frame count strictly exceeds the target, and otherwise an
immediate stop. -/
theorem capFrameCount_eq_runPasses :
    ∀ (frames : List Frame) (m : Nat),
      capFrameCount frames m = runPasses m (passTable m) frames :=
  fun frames m => capFrameCount_eq_runPasses_aux frames m

/-- C4: the Duplicate Eliminator equals its specification — starting from
the second frame, a frame is deleted iff the pixel-diff count against the
rolling baseline at 1% fuzz is ≤ 0, in which case the baseline is
unchanged, otherwise the frame becomes the new baseline; a failed diff
invocation retains the frame and the scan continues; and the first frame
is never removed. -/
theorem removeDuplicates_eq_spec :
    ∀ (diff : DiffOracle) (frames : List Frame),
      removeDuplicates diff frames = removeDuplicatesSpec diff frames ∧
      (removeDuplicates diff frames).head? = frames.head? := by
  intro diff frames
  cases frames with
  | nil => exact ⟨rfl, rfl⟩
  | cons b rest =>
    refine ⟨?_, rfl⟩
    simp only [removeDuplicates, removeDuplicatesSpec]
    rw [dedupLoop_eq_spec]

/-- C9: cleanup (deleting the surviving originals) happens strictly after
both the transcoder worker's completion and the blocking analyzer call's
return, and neither the worker body nor the analyzer call starts before
the decimation stages (capping and duplicate elimination) have
completed. -/
theorem cleanup_after_join_and_analyzer :
    hb Ev.capCount Ev.transcodeWork ∧ hb Ev.dedup Ev.transcodeWork ∧
    hb Ev.capCount Ev.metricsCall ∧ hb Ev.dedup Ev.metricsCall ∧
    hb Ev.transcodeWork Ev.deleteOriginals ∧
    hb Ev.metricsCall Ev.deleteOriginals := by
  have hcapFork : hb Ev.capCount Ev.forkTranscoder :=
    hb.mainStep ⟨1, by decide⟩ ⟨3, by decide⟩ (by decide)
  have hdedupFork : hb Ev.dedup Ev.forkTranscoder :=
    hb.mainStep ⟨2, by decide⟩ ⟨3, by decide⟩ (by decide)
  have hcapMetrics : hb Ev.capCount Ev.metricsCall :=
    hb.mainStep ⟨1, by decide⟩ ⟨4, by decide⟩ (by decide)
  have hdedupMetrics : hb Ev.dedup Ev.metricsCall :=
    hb.mainStep ⟨2, by decide⟩ ⟨4, by decide⟩ (by decide)
  have hjoinDelete : hb Ev.joinTranscoder Ev.deleteOriginals :=
    hb.mainStep ⟨5, by decide⟩ ⟨6, by decide⟩ (by decide)
  have hmetricsDelete : hb Ev.metricsCall Ev.deleteOriginals :=
    hb.mainStep ⟨4, by decide⟩ ⟨6, by decide⟩ (by decide)
  exact ⟨hcapFork.trans hb.forkSpawn, hdedupFork.trans hb.forkSpawn,
    hcapMetrics, hdedupMetrics,
    hb.joinWait.trans hjoinDelete, hmetricsDelete⟩

lemma getLast?_cons_of_some {α : Type} (f : α) {L : List α} {a : α}
    (h : L.getLast? = some a) : (f :: L).getLast? = some a := by
  cases L with
  | nil => simp at h
  | cons b L' => rw [List.getLast?_cons_cons]; exact h

lemma sampleLoop_cons_of_mem_pins (e1 e2 e3 : Frame) (th w k : Nat)
    (lb : Option Nat) (c : Nat) (f : Frame) (rest : List Frame)
    (hf : f = e1 ∨ f = e2 ∨ f = e3) :
    ∃ lb' c', sampleLoop e1 e2 e3 th w k lb c (f :: rest) =
      f :: sampleLoop e1 e2 e3 th w k lb' c' rest := by
  rcases hts : f.ts? with _ | t
  · exact ⟨lb, c, by simp [sampleLoop, hts]⟩
  · refine ⟨some (t / w), c + 1, ?_⟩
    have hcond : ¬ (t > th ∧ some (t / w) = lb ∧ f ≠ e1 ∧ f ≠ e2 ∧ f ≠ e3 ∧
        c + 1 > k) := by
      rintro ⟨-, -, h1, h2, h3, -⟩
      rcases hf with h | h | h
      · exact h1 h
      · exact h2 h
      · exact h3 h
    simp [sampleLoop, hts, hcond]

lemma sampleLoop_getLast (e1 e2 e3 : Frame) (th w k : Nat) :
    ∀ (rest : List Frame) (lb : Option Nat) (c : Nat),
      rest.getLast? = some e3 →
      (sampleLoop e1 e2 e3 th w k lb c rest).getLast? = some e3 := by
  intro rest
  induction rest with
  | nil => intro lb c h; simp at h
  | cons f rest' ih =>
    intro lb c hlast
    cases rest' with
    | nil =>
      have hf : f = e3 := by simpa using hlast
      subst hf
      rcases hts : f.ts? with _ | t
      · simp [sampleLoop, hts]
      · have hcond : ¬ (t > th ∧ some (t / w) = lb ∧ f ≠ e1 ∧ f ≠ e2 ∧
            f ≠ f ∧ c + 1 > k) := by
          rintro ⟨-, -, -, -, h3, -⟩; exact h3 rfl
        simp [sampleLoop, hts, hcond]
    | cons g rest'' =>
      have hlast' : (g :: rest'').getLast? = some e3 := by
        rw [List.getLast?_cons_cons] at hlast; exact hlast
      rcases hts : f.ts? with _ | t
      · simp only [sampleLoop, hts]
        exact getLast?_cons_of_some f (ih _ _ hlast')
      · by_cases hcond : t > th ∧ some (t / w) = lb ∧ f ≠ e1 ∧ f ≠ e2 ∧
            f ≠ e3 ∧ c + 1 > k
        · simp only [sampleLoop, hts]
          rw [if_pos hcond]
          exact ih _ _ hlast'
        · simp only [sampleLoop, hts]
          rw [if_neg hcond]
          exact getLast?_cons_of_some f (ih _ _ hlast')

lemma sampleLoop_filter_isNone (e1 e2 e3 : Frame) (th w k : Nat) :
    ∀ (rest : List Frame) (lb : Option Nat) (c : Nat),
      (sampleLoop e1 e2 e3 th w k lb c rest).filter (fun f => f.ts?.isNone) =
        rest.filter (fun f => f.ts?.isNone) := by
  intro rest
  induction rest with
  | nil => intro lb c; rfl
  | cons f rest' ih =>
    intro lb c
    rcases hts : f.ts? with _ | t
    · simp [sampleLoop, hts, List.filter_cons, ih]
    · by_cases hcond : t > th ∧ some (t / w) = lb ∧ f ≠ e1 ∧ f ≠ e2 ∧
          f ≠ e3 ∧ c + 1 > k
      · simp only [sampleLoop, hts]
        rw [if_pos hcond, ih]
        simp [List.filter_cons, hts]
      · simp only [sampleLoop, hts]
        rw [if_neg hcond]
        simp [List.filter_cons, hts, ih]

lemma sampleFrames_filter_isNone (frames : List Frame) (w s k : Nat) :
    (sampleFrames frames w s k).filter (fun f => f.ts?.isNone) =
      frames.filter (fun f => f.ts?.isNone) := by
  match frames with
  | [] => rfl
  | [_] => rfl
  | [_, _] => rfl
  | [_, _, _] => rfl
  | f0 :: f1 :: f2 :: f3 :: rest =>
    exact sampleLoop_filter_isNone f0 f1
      ((f3 :: rest).getLast (List.cons_ne_nil _ _)) (f1.ts?.getD 0 + s) w k
      (f0 :: f1 :: f2 :: f3 :: rest) none 0

lemma sampleFrames_short (frames : List Frame) (w s k : Nat)
    (h : frames.length ≤ 3) : sampleFrames frames w s k = frames := by
  match frames with
  | [] => rfl
  | [_] => rfl
  | [_, _] => rfl
  | [_, _, _] => rfl
  | f0 :: f1 :: f2 :: f3 :: rest => simp [List.length_cons] at h

lemma sampleFrames_pins (frames : List Frame) (w s k : Nat) :
    (sampleFrames frames w s k).head? = frames.head? ∧
    (sampleFrames frames w s k)[1]? = frames[1]? ∧
    (sampleFrames frames w s k).getLast? = frames.getLast? := by
  match frames with
  | [] => exact ⟨rfl, rfl, rfl⟩
  | [_] => exact ⟨rfl, rfl, rfl⟩
  | [_, _] => exact ⟨rfl, rfl, rfl⟩
  | [_, _, _] => exact ⟨rfl, rfl, rfl⟩
  | f0 :: f1 :: f2 :: f3 :: rest =>
    obtain ⟨lb1, c1, h1⟩ := sampleLoop_cons_of_mem_pins f0 f1
      ((f3 :: rest).getLast (List.cons_ne_nil _ _)) (f1.ts?.getD 0 + s) w k
      none 0 f0 (f1 :: f2 :: f3 :: rest) (Or.inl rfl)
    obtain ⟨lb2, c2, h2⟩ := sampleLoop_cons_of_mem_pins f0 f1
      ((f3 :: rest).getLast (List.cons_ne_nil _ _)) (f1.ts?.getD 0 + s) w k
      lb1 c1 f1 (f2 :: f3 :: rest) (Or.inr (Or.inl rfl))
    have hform : sampleFrames (f0 :: f1 :: f2 :: f3 :: rest) w s k =
        f0 :: f1 :: sampleLoop f0 f1
          ((f3 :: rest).getLast (List.cons_ne_nil _ _)) (f1.ts?.getD 0 + s)
          w k lb2 c2 (f2 :: f3 :: rest) := by
      show sampleLoop f0 f1 ((f3 :: rest).getLast (List.cons_ne_nil _ _))
        (f1.ts?.getD 0 + s) w k none 0 (f0 :: f1 :: f2 :: f3 :: rest) = _
      rw [h1, h2]
    have htail : (f2 :: f3 :: rest).getLast? =
        some ((f3 :: rest).getLast (List.cons_ne_nil _ _)) := by
      rw [List.getLast?_cons_cons]
      exact List.getLast?_eq_getLast _ _
    refine ⟨by rw [hform]; rfl, by rw [hform]; simp, ?_⟩
    rw [hform]
    have hout := sampleLoop_getLast f0 f1
      ((f3 :: rest).getLast (List.cons_ne_nil _ _)) (f1.ts?.getD 0 + s) w k
      (f2 :: f3 :: rest) lb2 c2 htail
    rw [getLast?_cons_of_some f0 (getLast?_cons_of_some f1 hout),
      List.getLast?_cons_cons, List.getLast?_cons_cons, htail]

/-- C5: for every input and every choice of pass parameters, the Windowed
Sampler keeps the first frame first, keeps the second frame second, keeps
the last frame last, and on a sequence of at most 3 frames performs no
deletions at all. -/
theorem sampler_preserves_first_second_last :
    ∀ (frames : List Frame) (w s k : Nat),
      ((sampleFrames frames w s k).head? = frames.head? ∧
       (sampleFrames frames w s k)[1]? = frames[1]? ∧
       (sampleFrames frames w s k).getLast? = frames.getLast?) ∧
      (frames.length ≤ 3 → sampleFrames frames w s k = frames) :=
  fun frames w s k =>
    ⟨sampleFrames_pins frames w s k, fun h => sampleFrames_short frames w s k h⟩

/-- Witness for C5 at a concrete input: a three-frame sequence is left
untouched. -/
theorem sampler_preserves_first_second_last_witness :
    sampleFrames [Frame.mk 0 (some 0), Frame.mk 1 (some 10),
      Frame.mk 2 (some 20)] 100 0 0 =
      [Frame.mk 0 (some 0), Frame.mk 1 (some 10), Frame.mk 2 (some 20)] :=
  (sampler_preserves_first_second_last [Frame.mk 0 (some 0),
    Frame.mk 1 (some 10), Frame.mk 2 (some 20)] 100 0 0).2 (by decide)

/-- C6 (counterexample): the frame `⟨4, some 1050⟩` of `exSeq6` is deleted
by the code's sampler (the unparseable frame `⟨3, none⟩` before it left
`last_bucket` untouched) but survives the specification's sampler, in
which the unparseable frame participates with timestamp 0; the two
samplers disagree on this input. -/
theorem unparsed_frame_changes_sampling :
    Frame.mk 4 (some 1050) ∉ sampleFrames exSeq6 100 0 0 ∧
    Frame.mk 4 (some 1050) ∈ sampleFramesTs0 exSeq6 100 0 0 ∧
    sampleFrames exSeq6 100 0 0 ≠ sampleFramesTs0 exSeq6 100 0 0 := by decide

/-- C6 (amended): a frame whose filename has no parseable millisecond
timestamp keeps its place in filename-sort order, but the Windowed
Sampler passes over it: the unparseable frames of the output are exactly
the unparseable frames of the input, in order. -/
theorem sampler_keeps_unparsed_frames :
    ∀ (frames : List Frame) (w s k : Nat),
      (sampleFrames frames w s k).filter (fun f => f.ts?.isNone) =
        frames.filter (fun f => f.ts?.isNone) :=
  fun frames w s k => sampleFrames_filter_isNone frames w s k

/-- C10: a frame whose filename does not match `ms_<digits>.` is never
deleted by the Windowed Sampler, and its visit leaves both the visited
count and `last_bucket` unchanged. -/
theorem unparsed_frame_skipped :
    (∀ (e1 e2 e3 : Frame) (th w k : Nat) (lb : Option Nat) (c : Nat)
        (f : Frame) (rest : List Frame), f.ts? = none →
        sampleLoop e1 e2 e3 th w k lb c (f :: rest) =
          f :: sampleLoop e1 e2 e3 th w k lb c rest) ∧
    (∀ (frames : List Frame) (w s k : Nat) (f : Frame),
        f ∈ frames → f.ts? = none → f ∈ sampleFrames frames w s k) := by
  constructor
  · intro e1 e2 e3 th w k lb c f rest hts
    simp [sampleLoop, hts]
  · intro frames w s k f hmem hts
    have hf : f ∈ frames.filter (fun g => g.ts?.isNone) :=
      List.mem_filter.mpr ⟨hmem, by simp [hts]⟩
    rw [← sampleFrames_filter_isNone frames w s k] at hf
    exact List.mem_of_mem_filter hf

/-- Witness for C10 at a concrete input: the unparseable frame of
`exSeq6` survives the sampler. -/
theorem unparsed_frame_skipped_witness :
    Frame.mk 3 none ∈ sampleFrames exSeq6 100 0 0 :=
  unparsed_frame_skipped.2 exSeq6 100 0 0 (Frame.mk 3 none) (by decide) rfl

/-- C7: when the resize invocation succeeds and the external resize
utility honors its contract (a successful rewrite leaves the image at the
requested target dimensions), the normalizer leaves the first frame with
the second frame's dimensions; and with fewer than 2 frames it changes
nothing. -/
theorem normalizer_equalizes_dimensions
    (resize : ResizeOracle) (dims : Frame → Nat × Nat) (frames : List Frame)
    (hcontract : ∀ cur tgt d, resize cur tgt = some d → d = tgt) :
    (∀ f0 f1 rest, frames = f0 :: f1 :: rest →
      (resize (dims f0) (dims f1)).isSome →
      normalizeFirst resize dims frames f0 = normalizeFirst resize dims frames f1) ∧
    (frames.length < 2 → normalizeFirst resize dims frames = dims) := by
  constructor
  · intro f0 f1 rest hfr hok
    subst hfr
    rcases hres : resize (dims f0) (dims f1) with _ | d
    · rw [hres] at hok; simp at hok
    · have hd : d = dims f1 := hcontract _ _ _ hres
      simp only [normalizeFirst, hres]
      by_cases h10 : f1 = f0
      · simp [h10]
      · simp [h10, hd]
  · intro hlen
    match frames, hlen with
    | [], _ => rfl
    | [_], _ => rfl

/-- Witness for C7 at a concrete input: an always-succeeding resize
oracle on a two-frame sequence. -/
theorem normalizer_equalizes_dimensions_witness :
    normalizeFirst (fun _ tgt => some tgt) (fun f => (f.id, f.id))
        [Frame.mk 0 none, Frame.mk 1 none] (Frame.mk 0 none) =
      normalizeFirst (fun _ tgt => some tgt) (fun f => (f.id, f.id))
        [Frame.mk 0 none, Frame.mk 1 none] (Frame.mk 1 none) :=
  (normalizer_equalizes_dimensions (fun _ tgt => some tgt)
      (fun f => (f.id, f.id)) [Frame.mk 0 none, Frame.mk 1 none]
      (fun _ _ _ h => (Option.some.inj h).symm)).1
    (Frame.mk 0 none) (Frame.mk 1 none) [] rfl rfl

/-- The deletion predicate of §4.4 of the specification, stated over
positions of the input sequence (for sequences in which every filename
parses): position `idx` is deleted iff its timestamp strictly exceeds
`timestamp(second frame) + startMs`, its bucket equals the bucket of the
immediately preceding frame in original order, it is none of the first,
second or last position, and the running count of visited frames
(`idx + 1`) strictly exceeds the keep quota. -/
def specDeleted (frames : List Frame) (interval startMs skipFrames idx : Nat) :
    Prop :=
  tsAt frames idx > tsAt frames 1 + startMs ∧
  (idx ≠ 0 ∧ tsAt frames idx / interval = tsAt frames (idx - 1) / interval) ∧
  idx ≠ 1 ∧ idx ≠ frames.length - 1 ∧
  idx + 1 > skipFrames

instance (frames : List Frame) (w s k idx : Nat) :
    Decidable (specDeleted frames w s k idx) := by
  unfold specDeleted; infer_instance

/-- The value of the loop state `last_bucket` on arrival at position `j`,
for an input in which every filename parses. -/
def lbAt (frames : List Frame) (w : Nat) : Nat → Option Nat
  | 0 => none
  | j + 1 => some (tsAt frames j / w)

/-- The loop's deletion condition at position `idx`, phrased with the
pinned frames by identity (as the code compares paths). -/
def delCondE (all : List Frame) (e1 e2 e3 : Frame) (th w k idx : Nat) : Prop :=
  tsAt all idx > th ∧ some (tsAt all idx / w) = lbAt all w idx ∧
  all[idx]? ≠ some e1 ∧ all[idx]? ≠ some e2 ∧ all[idx]? ≠ some e3 ∧
  idx + 1 > k

lemma sampleLoop_sublist (e1 e2 e3 : Frame) (th w k : Nat) :
    ∀ (rest : List Frame) (lb : Option Nat) (c : Nat),
      List.Sublist (sampleLoop e1 e2 e3 th w k lb c rest) rest := by
  intro rest
  induction rest with
  | nil => intro lb c; exact List.Sublist.refl _
  | cons f rest' ih =>
    intro lb c
    rcases hts : f.ts? with _ | t
    · simpa [sampleLoop, hts] using (ih lb c).cons₂ f
    · by_cases hcond : t > th ∧ some (t / w) = lb ∧ f ≠ e1 ∧ f ≠ e2 ∧
          f ≠ e3 ∧ c + 1 > k
      · simp only [sampleLoop, hts]
        rw [if_pos hcond]
        exact (ih _ _).cons f
      · simp only [sampleLoop, hts]
        rw [if_neg hcond]
        exact (ih _ _).cons₂ f

lemma sampleFrames_sublist (frames : List Frame) (w s k : Nat) :
    List.Sublist (sampleFrames frames w s k) frames := by
  match frames with
  | [] => exact List.Sublist.refl _
  | [_] => exact List.Sublist.refl _
  | [_, _] => exact List.Sublist.refl _
  | [_, _, _] => exact List.Sublist.refl _
  | f0 :: f1 :: f2 :: f3 :: rest =>
    exact sampleLoop_sublist f0 f1 ((f3 :: rest).getLast (List.cons_ne_nil _ _))
      (f1.ts?.getD 0 + s) w k (f0 :: f1 :: f2 :: f3 :: rest) none 0

lemma delCondE_iff (all : List Frame) (e1 e2 e3 : Frame) (th w k j t : Nat)
    (hj : j < all.length) (ht : (all[j]).ts? = some t) :
    delCondE all e1 e2 e3 th w k j ↔
      (t > th ∧ some (t / w) = lbAt all w j ∧ all[j] ≠ e1 ∧ all[j] ≠ e2 ∧
        all[j] ≠ e3 ∧ j + 1 > k) := by
  have hts : tsAt all j = t := by simp [tsAt, List.getElem?_eq_getElem hj, ht]
  simp [delCondE, hts, List.getElem?_eq_getElem hj]

lemma sampleLoop_mem_iff (all : List Frame) (hall : ∀ f ∈ all, f.ts?.isSome)
    (hnd : all.Nodup) (e1 e2 e3 : Frame) (th w k : Nat) :
    ∀ (n j idx : Nat) (hidx : idx < all.length), all.length - j ≤ n → j ≤ idx →
      (all[idx] ∈ sampleLoop e1 e2 e3 th w k (lbAt all w j) j (all.drop j) ↔
        ¬ delCondE all e1 e2 e3 th w k idx) := by
  intro n
  induction n with
  | zero =>
    intro j idx hidx hn hj
    exact absurd hidx (by omega)
  | succ n ih =>
    intro j idx hidx hn hj
    have hjlt : j < all.length := lt_of_le_of_lt hj hidx
    obtain ⟨t, ht⟩ := Option.isSome_iff_exists.mp (hall _ (List.getElem_mem hjlt))
    have hts : tsAt all j = t := by simp [tsAt, List.getElem?_eq_getElem hjlt, ht]
    have hlb1 : lbAt all w (j + 1) = some (t / w) := by simp [lbAt, hts]
    rw [List.drop_eq_getElem_cons hjlt]
    by_cases hcond : t > th ∧ some (t / w) = lbAt all w j ∧ all[j] ≠ e1 ∧
        all[j] ≠ e2 ∧ all[j] ≠ e3 ∧ j + 1 > k
    · have hstep : sampleLoop e1 e2 e3 th w k (lbAt all w j) j
          (all[j] :: all.drop (j + 1)) =
          sampleLoop e1 e2 e3 th w k (some (t / w)) (j + 1) (all.drop (j + 1)) := by
        simp only [sampleLoop, ht]
        rw [if_pos hcond]
      rw [hstep, ← hlb1]
      rcases hj.eq_or_lt with hje | hjlt2
      · subst hje
        have hdel : delCondE all e1 e2 e3 th w k j :=
          (delCondE_iff all e1 e2 e3 th w k j t hjlt ht).mpr hcond
        have hnm : all[j] ∉ sampleLoop e1 e2 e3 th w k (lbAt all w (j + 1))
            (j + 1) (all.drop (j + 1)) := by
          intro hmem
          have hmem' : all[j] ∈ all.drop (j + 1) :=
            (sampleLoop_sublist e1 e2 e3 th w k (all.drop (j + 1)) _ _).subset hmem
          obtain ⟨i, hi, hig⟩ := List.getElem_of_mem hmem'
          rw [List.getElem_drop] at hig
          have : j + 1 + i = j := (List.Nodup.getElem_inj_iff hnd).mp hig
          omega
        exact iff_of_false hnm (not_not_intro hdel)
      · exact ih (j + 1) idx hidx (by omega) hjlt2
    · have hstep : sampleLoop e1 e2 e3 th w k (lbAt all w j) j
          (all[j] :: all.drop (j + 1)) =
          all[j] :: sampleLoop e1 e2 e3 th w k (some (t / w)) (j + 1)
            (all.drop (j + 1)) := by
        simp only [sampleLoop, ht]
        rw [if_neg hcond]
      rw [hstep, ← hlb1]
      rcases hj.eq_or_lt with hje | hjlt2
      · subst hje
        have hndel : ¬ delCondE all e1 e2 e3 th w k j := fun hd =>
          hcond ((delCondE_iff all e1 e2 e3 th w k j t hjlt ht).mp hd)
        exact iff_of_true (List.mem_cons_self _ _) hndel
      · rw [List.mem_cons]
        have hne : all[idx] ≠ all[j] := by
          intro he
          have := (List.Nodup.getElem_inj_iff hnd).mp he
          omega
        constructor
        · rintro (he | hmem)
          · exact absurd he hne
          · exact (ih (j + 1) idx hidx (by omega) hjlt2).mp hmem
        · intro hnd'
          exact Or.inr ((ih (j + 1) idx hidx (by omega) hjlt2).mpr hnd')

lemma specDeleted_iff_delCondE (all : List Frame) (w s k : Nat)
    (hnd : all.Nodup) (hne : all ≠ [])
    (idx : Nat) (hidx : idx < all.length) (h0 : 0 < all.length)
    (h1 : 1 < all.length) :
    specDeleted all w s k idx ↔
      delCondE all (all[0]) (all[1]) (all.getLast hne) (tsAt all 1 + s) w k idx := by
  have hlastlt : all.length - 1 < all.length := by omega
  have hgl : all.getLast hne = all[all.length - 1] := List.getLast_eq_getElem all hne
  have hlbIff : (some (tsAt all idx / w) = lbAt all w idx) ↔
      (idx ≠ 0 ∧ tsAt all idx / w = tsAt all (idx - 1) / w) := by
    cases idx with
    | zero => simp [lbAt]
    | succ m => simp [lbAt, eq_comm]
  have he1 : (all[idx]? ≠ some (all[0])) ↔ idx ≠ 0 := by
    rw [List.getElem?_eq_getElem hidx]
    simp only [ne_eq, Option.some.injEq]
    constructor
    · intro h h0'
      subst h0'
      exact h rfl
    · intro h heq
      exact h ((List.Nodup.getElem_inj_iff hnd).mp heq)
  have he2 : (all[idx]? ≠ some (all[1])) ↔ idx ≠ 1 := by
    rw [List.getElem?_eq_getElem hidx]
    simp only [ne_eq, Option.some.injEq]
    constructor
    · intro h h1'
      subst h1'
      exact h rfl
    · intro h heq
      exact h ((List.Nodup.getElem_inj_iff hnd).mp heq)
  have he3 : (all[idx]? ≠ some (all.getLast hne)) ↔ idx ≠ all.length - 1 := by
    rw [List.getElem?_eq_getElem hidx, hgl]
    simp only [ne_eq, Option.some.injEq]
    constructor
    · intro h hl'
      subst hl'
      exact h rfl
    · intro h heq
      exact h ((List.Nodup.getElem_inj_iff hnd).mp heq)
  unfold specDeleted delCondE
  rw [hlbIff, he1, he2, he3]
  tauto

lemma sampleFrames_not_mem_iff (frames : List Frame) (w s k : Nat)
    (h3 : 3 < frames.length) (hall : ∀ f ∈ frames, f.ts?.isSome)
    (hnd : frames.Nodup) (idx : Nat) (hidx : idx < frames.length) :
    frames[idx] ∉ sampleFrames frames w s k ↔ specDeleted frames w s k idx := by
  rcases frames with _ | ⟨f0, _ | ⟨f1, _ | ⟨f2, _ | ⟨f3, rest⟩⟩⟩⟩
  · simp at h3
  · simp at h3
  · simp at h3
  · simp at h3
  · have hne : (f0 :: f1 :: f2 :: f3 :: rest) ≠ [] := List.cons_ne_nil _ _
    have he3 : (f3 :: rest).getLast (List.cons_ne_nil _ _) =
        (f0 :: f1 :: f2 :: f3 :: rest).getLast hne := by
      simp [List.getLast_cons]
    have hth : f1.ts?.getD 0 = tsAt (f0 :: f1 :: f2 :: f3 :: rest) 1 := by
      simp [tsAt]
    have hform : sampleFrames (f0 :: f1 :: f2 :: f3 :: rest) w s k =
        sampleLoop f0 f1 ((f0 :: f1 :: f2 :: f3 :: rest).getLast hne)
          (tsAt (f0 :: f1 :: f2 :: f3 :: rest) 1 + s) w k
          (lbAt (f0 :: f1 :: f2 :: f3 :: rest) w 0) 0
          ((f0 :: f1 :: f2 :: f3 :: rest).drop 0) := by
      show sampleLoop f0 f1 ((f3 :: rest).getLast (List.cons_ne_nil _ _))
        (f1.ts?.getD 0 + s) w k none 0 (f0 :: f1 :: f2 :: f3 :: rest) = _
      rw [he3, hth]
      rfl
    have hm := sampleLoop_mem_iff (f0 :: f1 :: f2 :: f3 :: rest) hall hnd f0 f1
      ((f0 :: f1 :: f2 :: f3 :: rest).getLast hne)
      (tsAt (f0 :: f1 :: f2 :: f3 :: rest) 1 + s) w k
      (f0 :: f1 :: f2 :: f3 :: rest).length 0 idx hidx (by omega) (Nat.zero_le _)
    rw [hform, hm, not_not]
    exact (specDeleted_iff_delCondE (f0 :: f1 :: f2 :: f3 :: rest) w s k hnd hne
      idx hidx (by simp) (by simp)).symm

/-- C2: for an input with more than 3 frames in which every filename
parses (distinct paths), the Windowed Sampler deletes the frame at
position `idx` iff its timestamp strictly exceeds
`timestamp(second frame) + startMs`, its bucket equals the bucket of the
immediately preceding frame in original order (the `last_bucket` pointer,
updated on every visited frame whether or not it was deleted), it is not
the first, second or last frame, and the running count of frames visited
so far (deleted ones included) strictly exceeds the keep quota. -/
theorem sampler_deletes_iff (frames : List Frame) (w s k : Nat)
    (h3 : 3 < frames.length) (hall : ∀ f ∈ frames, f.ts?.isSome)
    (hnd : frames.Nodup) (idx : Nat) (hidx : idx < frames.length) :
    frames[idx] ∉ sampleFrames frames w s k ↔ specDeleted frames w s k idx :=
  sampleFrames_not_mem_iff frames w s k h3 hall hnd idx hidx

/-- A concrete five-frame sequence used to exercise the deletion
characterization: with bucket width 100, window start 0 and quota 0, the
frame at position 3 falls in the bucket of its predecessor and is
deleted. -/
def exSeq5 : List Frame :=
  [⟨0, some 0⟩, ⟨1, some 10⟩, ⟨2, some 200⟩, ⟨3, some 210⟩, ⟨4, some 900⟩]

/-- Witness for C2 at a concrete input. -/
theorem sampler_deletes_iff_witness :
    Frame.mk 3 (some 210) ∉ sampleFrames exSeq5 100 0 0 :=
  (sampler_deletes_iff exSeq5 100 0 0 (by decide) (by decide) (by decide) 3
    (by decide)).mpr (by decide)

lemma tsAt_mono {base : List Frame}
    (hmono : List.Pairwise (fun a b => a.ts?.getD 0 ≤ b.ts?.getD 0) base)
    {i j : Nat} (hij : i ≤ j) (hj : j < base.length) :
    tsAt base i ≤ tsAt base j := by
  rcases Nat.eq_or_lt_of_le hij with rfl | hlt
  · exact le_refl _
  · have hi : i < base.length := lt_trans hlt hj
    have hp := List.pairwise_iff_get.mp hmono ⟨i, hi⟩ ⟨j, hj⟩ hlt
    simp only [List.get_eq_getElem] at hp
    simpa [tsAt, List.getElem?_eq_getElem hi, List.getElem?_eq_getElem hj]
      using hp

lemma sampleFrames_eq_self_of_not_deleted (gs : List Frame) (w s k : Nat)
    (hall : ∀ f ∈ gs, f.ts?.isSome) (hnd : gs.Nodup)
    (hnodel : ∀ idx, idx < gs.length → ¬ specDeleted gs w s k idx) :
    sampleFrames gs w s k = gs := by
  by_cases h3 : 3 < gs.length
  · have hsub := sampleFrames_sublist gs w s k
    have hsubset : gs ⊆ sampleFrames gs w s k := by
      intro f hf
      obtain ⟨i, hi, hfi⟩ := List.getElem_of_mem hf
      subst hfi
      by_contra hout
      exact hnodel i hi ((sampleFrames_not_mem_iff gs w s k h3 hall hnd i hi).mp hout)
    have hlen : gs.length ≤ (sampleFrames gs w s k).length :=
      (List.subperm_of_subset hnd hsubset).length_le
    exact hsub.eq_of_length (Nat.le_antisymm hsub.length_le hlen)
  · exact sampleFrames_short gs w s k (by omega)

lemma sampler_stable (base : List Frame) (w s k : Nat)
    (hall : ∀ f ∈ base, f.ts?.isSome) (hnd : base.Nodup)
    (hmono : List.Pairwise (fun a b => a.ts?.getD 0 ≤ b.ts?.getD 0) base)
    (gs : List Frame) (hsub : List.Sublist gs (sampleFrames base w s k))
    (hsecond : gs[1]? = base[1]?) (hlast : gs.getLast? = base.getLast?)
    (hg3 : 3 < gs.length) :
    ∀ idx, idx < gs.length → ¬ specDeleted gs w s k idx := by
  intro idx hidx hdel
  have hsubbase : List.Sublist gs base := hsub.trans (sampleFrames_sublist base w s k)
  have hndgs : gs.Nodup := hsubbase.nodup hnd
  have hb3 : 3 < base.length := lt_of_lt_of_le hg3 hsubbase.length_le
  obtain ⟨φ, hφ⟩ := List.sublist_iff_exists_orderEmbedding_get?_eq.mp hsubbase
  obtain ⟨hA, ⟨hidx0, hbuck⟩, hidx1, hidxL, hcount⟩ := hdel
  have hφe : ∀ i : Nat, gs[i]? = base[φ i]? := by
    intro i
    have h := hφ i
    rwa [List.get?_eq_getElem?, List.get?_eq_getElem?] at h
  have hsome : base[φ idx]? = some (gs[idx]) := by
    rw [← hφe idx]
    exact List.getElem?_eq_getElem hidx
  obtain ⟨hqlt, hbq⟩ := List.getElem?_eq_some.mp hsome
  have hidx1lt : idx - 1 < gs.length := by omega
  have hsome' : base[φ (idx - 1)]? = some (gs.get ⟨idx - 1, hidx1lt⟩) := by
    rw [← hφe (idx - 1), List.get_eq_getElem]
    exact List.getElem?_eq_getElem hidx1lt
  obtain ⟨hq'lt, -⟩ := List.getElem?_eq_some.mp hsome'
  have hq'q : φ (idx - 1) < φ idx := φ.strictMono (by omega)
  have hqle : idx ≤ φ idx := φ.strictMono.le_apply
  have htq : tsAt base (φ idx) = tsAt gs idx := by
    unfold tsAt
    rw [← hφe idx]
  have htq' : tsAt base (φ (idx - 1)) = tsAt gs (idx - 1) := by
    unfold tsAt
    rw [← hφe (idx - 1)]
  have hts1 : tsAt gs 1 = tsAt base 1 := by
    unfold tsAt
    rw [hsecond]
  have hle1 : tsAt base (φ (idx - 1)) ≤ tsAt base (φ idx - 1) :=
    tsAt_mono hmono (by omega) (by omega)
  have hle2 : tsAt base (φ idx - 1) ≤ tsAt base (φ idx) :=
    tsAt_mono hmono (by omega) hqlt
  have hends : tsAt base (φ (idx - 1)) / w = tsAt base (φ idx) / w := by
    rw [htq', htq]
    exact hbuck.symm
  have hbuckq : tsAt base (φ idx) / w = tsAt base (φ idx - 1) / w := by
    have d1 : tsAt base (φ (idx - 1)) / w ≤ tsAt base (φ idx - 1) / w :=
      Nat.div_le_div_right hle1
    have d2 : tsAt base (φ idx - 1) / w ≤ tsAt base (φ idx) / w :=
      Nat.div_le_div_right hle2
    omega
  have hq1 : φ idx ≠ 1 := by
    intro h
    have h1lt : (1 : Nat) < gs.length := by omega
    have hgeq : gs[1]? = some (gs[idx]) := by
      rw [hsecond, ← h]
      exact hsome
    rw [List.getElem?_eq_getElem h1lt] at hgeq
    have := (List.Nodup.getElem_inj_iff hndgs).mp (Option.some.inj hgeq)
    omega
  have hqL : φ idx ≠ base.length - 1 := by
    intro h
    have hgne : gs ≠ [] := by
      intro he
      rw [he] at hg3
      simp at hg3
    have hbne : base ≠ [] := by
      intro he
      rw [he] at hb3
      simp at hb3
    have hgL : gs.length - 1 < gs.length := by omega
    have hbL : base.length - 1 < base.length := by omega
    have hgl : gs.getLast? = some (gs[gs.length - 1]) := by
      rw [List.getLast?_eq_getLast_of_ne_nil hgne, List.getLast_eq_getElem]
    have hbl : base.getLast? = some (base[base.length - 1]) := by
      rw [List.getLast?_eq_getLast_of_ne_nil hbne, List.getLast_eq_getElem]
    have heq : gs[gs.length - 1] = base[base.length - 1] := by
      have hmm := hlast
      rw [hgl, hbl] at hmm
      exact Option.some.inj hmm
    have h2 : base[φ idx]? = base[base.length - 1]? := by rw [h]
    rw [List.getElem?_eq_getElem hqlt, List.getElem?_eq_getElem hbL] at h2
    have h4 : gs[idx] = gs[gs.length - 1] := by
      rw [← hbq, Option.some.inj h2, ← heq]
    have := (List.Nodup.getElem_inj_iff hndgs).mp h4
    omega
  have hdelbase : specDeleted base w s k (φ idx) := by
    refine ⟨?_, ⟨by omega, hbuckq⟩, hq1, hqL, by omega⟩
    rw [htq, ← hts1]
    exact hA
  have hmem : base[φ idx] ∈ sampleFrames base w s k := by
    have hmm : gs[idx] ∈ gs := List.getElem_mem hidx
    have hmm2 := hsub.subset hmm
    rwa [← hbq] at hmm2
  exact (sampleFrames_not_mem_iff base w s k hb3 hall hnd (φ idx) hqlt).mpr
    hdelbase hmem

lemma capFrameCount_unfold (fs : List Frame) (m : Nat) :
    capFrameCount fs m =
      if fs.length > m then
        if (sampleFrames fs 100 0 (skipQuota m 2)).length > m then
          if (sampleFrames (sampleFrames fs 100 0 (skipQuota m 2)) 500 5000
              (skipQuota m 4)).length > m then
            sampleFrames (sampleFrames (sampleFrames fs 100 0 (skipQuota m 2))
              500 5000 (skipQuota m 4)) 1000 10000 (skipQuota m 6)
          else
            sampleFrames (sampleFrames fs 100 0 (skipQuota m 2)) 500 5000
              (skipQuota m 4)
        else sampleFrames fs 100 0 (skipQuota m 2)
      else fs := rfl

lemma cap_runs_clean (fs y1 y2 y3 : List Frame) (m : Nat)
    (hall : ∀ f ∈ fs, f.ts?.isSome) (hnd : fs.Nodup)
    (hmono : List.Pairwise (fun a b => a.ts?.getD 0 ≤ b.ts?.getD 0) fs)
    (hy1 : y1 = sampleFrames fs 100 0 (skipQuota m 2))
    (hy2 : y2 = sampleFrames y1 500 5000 (skipQuota m 4))
    (hy3 : y3 = sampleFrames y2 1000 10000 (skipQuota m 6)) :
    capFrameCount y3 m = y3 := by
  have hsub1 : List.Sublist y1 fs := by
    rw [hy1]; exact sampleFrames_sublist _ _ _ _
  have hsub2 : List.Sublist y2 y1 := by
    rw [hy2]; exact sampleFrames_sublist _ _ _ _
  have hsub3 : List.Sublist y3 y2 := by
    rw [hy3]; exact sampleFrames_sublist _ _ _ _
  have hall1 : ∀ f ∈ y1, f.ts?.isSome := fun f hf => hall f (hsub1.subset hf)
  have hall2 : ∀ f ∈ y2, f.ts?.isSome := fun f hf => hall1 f (hsub2.subset hf)
  have hall3 : ∀ f ∈ y3, f.ts?.isSome := fun f hf => hall2 f (hsub3.subset hf)
  have hnd1 : y1.Nodup := hsub1.nodup hnd
  have hnd2 : y2.Nodup := hsub2.nodup hnd1
  have hnd3 : y3.Nodup := hsub3.nodup hnd2
  have hmono1 := List.Pairwise.sublist hsub1 hmono
  have hmono2 := List.Pairwise.sublist hsub2 hmono1
  have hsecond1 : y1[1]? = fs[1]? := by
    rw [hy1]; exact (sampleFrames_pins _ _ _ _).2.1
  have hsecond2 : y2[1]? = y1[1]? := by
    rw [hy2]; exact (sampleFrames_pins _ _ _ _).2.1
  have hsecond3 : y3[1]? = y2[1]? := by
    rw [hy3]; exact (sampleFrames_pins _ _ _ _).2.1
  have hlast1 : y1.getLast? = fs.getLast? := by
    rw [hy1]; exact (sampleFrames_pins _ _ _ _).2.2
  have hlast2 : y2.getLast? = y1.getLast? := by
    rw [hy2]; exact (sampleFrames_pins _ _ _ _).2.2
  have hlast3 : y3.getLast? = y2.getLast? := by
    rw [hy3]; exact (sampleFrames_pins _ _ _ _).2.2
  by_cases hg : y3.length > m
  · by_cases hg3 : 3 < y3.length
    · have hstab1 := sampler_stable fs 100 0 (skipQuota m 2) hall hnd hmono y3
        (by rw [← hy1]; exact hsub3.trans hsub2)
        (hsecond3.trans (hsecond2.trans hsecond1))
        (hlast3.trans (hlast2.trans hlast1)) hg3
      have hz1 : sampleFrames y3 100 0 (skipQuota m 2) = y3 :=
        sampleFrames_eq_self_of_not_deleted y3 100 0 (skipQuota m 2) hall3 hnd3
          hstab1
      have hstab2 := sampler_stable y1 500 5000 (skipQuota m 4) hall1 hnd1
        hmono1 y3 (by rw [← hy2]; exact hsub3) (hsecond3.trans hsecond2)
        (hlast3.trans hlast2) hg3
      have hz2 : sampleFrames y3 500 5000 (skipQuota m 4) = y3 :=
        sampleFrames_eq_self_of_not_deleted y3 500 5000 (skipQuota m 4) hall3
          hnd3 hstab2
      have hstab3 := sampler_stable y2 1000 10000 (skipQuota m 6) hall2 hnd2
        hmono2 y3 (by rw [← hy3]) hsecond3 hlast3 hg3
      have hz3 : sampleFrames y3 1000 10000 (skipQuota m 6) = y3 :=
        sampleFrames_eq_self_of_not_deleted y3 1000 10000 (skipQuota m 6) hall3
          hnd3 hstab3
      rw [capFrameCount_unfold, if_pos hg, hz1, hz2, hz3, if_pos hg, if_pos hg]
    · have hshort : ∀ w s k, sampleFrames y3 w s k = y3 := fun w s k =>
        sampleFrames_short y3 w s k (by omega)
      simp only [capFrameCount_unfold, hshort, if_pos hg]
  · rw [capFrameCount_unfold, if_neg hg]

/-- C8: re-running the Adaptive Capper with the same `max_frames` on a
sequence it has already processed performs zero deletions, for
FrameSequences satisfying the data-model invariants of §3 (every filename
embeds a parseable timestamp, paths are distinct, and filename order is
timestamp order). -/
theorem capper_idempotent (fs : List Frame) (m : Nat)
    (hall : ∀ f ∈ fs, f.ts?.isSome) (hnd : fs.Nodup)
    (hmono : List.Pairwise (fun a b => a.ts?.getD 0 ≤ b.ts?.getD 0) fs) :
    capFrameCount (capFrameCount fs m) m = capFrameCount fs m := by
  rw [capFrameCount_unfold fs m]
  by_cases h0 : fs.length > m
  · rw [if_pos h0]
    by_cases h1 : (sampleFrames fs 100 0 (skipQuota m 2)).length > m
    · rw [if_pos h1]
      by_cases h2 : (sampleFrames (sampleFrames fs 100 0 (skipQuota m 2)) 500
          5000 (skipQuota m 4)).length > m
      · rw [if_pos h2]
        exact cap_runs_clean fs _ _ _ m hall hnd hmono rfl rfl rfl
      · rw [if_neg h2, capFrameCount_unfold, if_neg h2]
    · rw [if_neg h1, capFrameCount_unfold, if_neg h1]
  · rw [if_neg h0, capFrameCount_unfold, if_neg h0]

/-- Witness for C8 at a concrete input: five timestamp-sorted frames
capped to a target of 4 (the first run deletes one frame; the second run
deletes none). -/
theorem capper_idempotent_witness :
    capFrameCount (capFrameCount exSeq5 4) 4 = capFrameCount exSeq5 4 :=
  capper_idempotent exSeq5 4 (by decide) (by decide) (by decide)

end WptAgent
